import Mathlib

/-!
Shallow embedding of the HyperLogLog cardinality estimator
(`src/hyperloglog.py`, class `HyperLogLog`).

Modelling conventions:
* Python arbitrary-precision non-negative integers are `ℕ`; the constructor
  argument, which Python allows to be any `int`, is `ℤ`.
* Python floats are modelled as real numbers `ℝ` (the spec describes the
  formulas as exact real arithmetic).
* Fallible float operations are modelled with `Option`: `math.log x` raises
  `ValueError` for `x ≤ 0`, and `a / b` raises `ZeroDivisionError` for
  `b = 0`; both are represented by `none`.
* The Python `assert` statements in `__init__` and `merge` raise
  (`InvalidConfiguration` / `IncompatibleShape` in the spec's terminology);
  construction is `Except`-valued and `merge` returns the (possibly
  unchanged) state together with an optional error, mirroring the fact that
  the assert runs before any mutation.
* `self.alpha_m` is stored at construction but is a deterministic function
  of `number_of_buckets` alone, so it is embedded as the function
  `compute_alpha_m` applied on demand; estimator state is the pair
  (`number_of_buckets`, `buckets`).
* SHA-256 itself is not re-implemented: `HyperLogLog.add` is parameterised
  by the hash function `String → ℕ`, and the fact that SHA-256 digests are
  256-bit is carried as the hypothesis `hash item < 2 ^ 256` where needed.
* For constructed estimators `number_of_buckets` is a positive power of
  two; the embedding of `add` uses `ℕ` subtraction/`Nat.log2`, which agree
  with Python on every constructible estimator (`number_of_buckets ≥ 1`).
-/

/-- Error kinds of the estimator (spec section 7). -/
inductive HLLError where
  | invalidConfiguration
  | incompatibleShape
deriving DecidableEq, Repr

/-- Estimator state: `self.number_of_buckets` and `self.buckets`
(`src/hyperloglog.py`, `__init__`). -/
@[ext]
structure HyperLogLog where
  number_of_buckets : ℕ
  buckets : List ℕ
deriving DecidableEq, Repr

/-- Embedding of `HyperLogLog._compute_alpha_m` (the returned constant;
`src/hyperloglog.py` lines 39-47). -/
noncomputable def compute_alpha_m (number_of_buckets : ℕ) : ℝ :=
  if number_of_buckets = 16 then 0.673
  else if number_of_buckets = 32 then 0.697
  else if number_of_buckets = 64 then 0.709
  else 0.7213 / (1 + 1.079 / (number_of_buckets : ℝ))

/-- Embedding of the warning condition in `HyperLogLog._compute_alpha_m`
(`src/hyperloglog.py` lines 34-37): the diagnostic is printed exactly when
`not math.log2(m).is_integer() and m < 128`.  For `m ≥ 1`,
`math.log2(m)` is an integer exactly when `m` is a power of two, i.e.
`2 ^ Nat.log2 m = m`. -/
def alphaWarns (number_of_buckets : ℕ) : Bool :=
  !(2 ^ Nat.log2 number_of_buckets == number_of_buckets) &&
    number_of_buckets < 128

/-- Loop of `HyperLogLog._count_leading_zeroes` (`src/hyperloglog.py`
lines 58-64): `count` starts at 1; while `value > 0`, stop when the low
bit is set, else shift right and increment `count`. -/
def clzGo (value count : ℕ) : ℕ :=
  if h : 0 < value then
    if value &&& 1 = 1 then count
    else clzGo (value >>> 1) (count + 1)
  else count
termination_by value
decreasing_by
  simp only [Nat.shiftRight_succ, Nat.shiftRight_zero]
  exact Nat.div_lt_self h (by norm_num)

/-- Embedding of `HyperLogLog._count_leading_zeroes`
(`src/hyperloglog.py` lines 49-64). -/
def count_leading_zeroes (value : ℕ) : ℕ :=
  clzGo value 1

/-- The state built by a successful `HyperLogLog.__init__`
(`src/hyperloglog.py` lines 17-18): `m` zero registers. -/
def freshHLL (number_of_buckets : ℕ) : HyperLogLog :=
  ⟨number_of_buckets, List.replicate number_of_buckets 0⟩

/-- Embedding of `HyperLogLog.__init__` (`src/hyperloglog.py` lines
11-19).  The two asserts run in order: `number_of_buckets > 0` first,
then `number_of_buckets & (number_of_buckets - 1) == 0`; a failed assert
is the spec's `InvalidConfiguration`.  For a positive `int` the Python
bitwise test agrees with the `ℕ` one on `toNat`. -/
def HyperLogLog.new (number_of_buckets : ℤ) : Except HLLError HyperLogLog :=
  if number_of_buckets ≤ 0 then .error .invalidConfiguration
  else if number_of_buckets.toNat &&& (number_of_buckets.toNat - 1) = 0 then
    .ok (freshHLL number_of_buckets.toNat)
  else .error .invalidConfiguration

/-- Embedding of `HyperLogLog.add` (`src/hyperloglog.py` lines 66-85)
with the hash value already computed: bucket index is
`hash_value & (m - 1)`, the remaining hash is
`hash_value >> int(math.log2(m))`, and the register is updated with
`max`. -/
def HyperLogLog.addHash (self : HyperLogLog) (hash_value : ℕ) : HyperLogLog :=
  let bucket_index := hash_value &&& (self.number_of_buckets - 1)
  let remaining_hash := hash_value >>> Nat.log2 self.number_of_buckets
  let leading_zeroes := count_leading_zeroes remaining_hash
  ⟨self.number_of_buckets,
    self.buckets.set bucket_index
      (max (self.buckets.getD bucket_index 0) leading_zeroes)⟩

/-- Embedding of `HyperLogLog.add` on an item, parameterised by the hash
function (SHA-256 of the UTF-8 encoding in the source). -/
def HyperLogLog.add (hashFn : String → ℕ) (self : HyperLogLog)
    (item : String) : HyperLogLog :=
  self.addHash (hashFn item)

/-- The register state built by a successful `HyperLogLog.merge`
(`src/hyperloglog.py` lines 115-118): element-wise maximum over
`range(self.number_of_buckets)`. -/
def mergeRegs (self other : HyperLogLog) : HyperLogLog :=
  ⟨self.number_of_buckets,
    (List.range self.number_of_buckets).map fun i =>
      max (self.buckets.getD i 0) (other.buckets.getD i 0)⟩

/-- Embedding of `HyperLogLog.merge` (`src/hyperloglog.py` lines
107-118).  The assert comparing bucket counts runs before any mutation,
so on failure the returned state is `self` unchanged together with the
spec's `IncompatibleShape` error. -/
def HyperLogLog.merge (self other : HyperLogLog) :
    HyperLogLog × Option HLLError :=
  if self.number_of_buckets = other.number_of_buckets then
    (mergeRegs self other, none)
  else (self, some .incompatibleShape)

/-- Python `math.log`: defined for positive arguments, raises
`ValueError` (modelled as `none`) otherwise. -/
noncomputable def pylog (x : ℝ) : Option ℝ :=
  if 0 < x then some (Real.log x) else none

/-- The constant `1 << 32` of the large-range correction, as a real. -/
noncomputable def two32 : ℝ := ((1 <<< 32 : ℕ) : ℝ)

/-- The harmonic denominator `sum(2 ** -register for register in
self.buckets)` (`src/hyperloglog.py` line 92). -/
noncomputable def harmonicDenom (self : HyperLogLog) : ℝ :=
  (self.buckets.map fun register : ℕ => (2 : ℝ) ^ (-(register : ℤ))).sum

/-- The raw estimate `alpha_m * m ** 2 / harmonic_mean`
(`src/hyperloglog.py` line 93). -/
noncomputable def rawEstimate (self : HyperLogLog) : ℝ :=
  compute_alpha_m self.number_of_buckets *
    (self.number_of_buckets : ℝ) ^ 2 / harmonicDenom self

/-- `self.buckets.count(0)` (`src/hyperloglog.py` line 97). -/
def zeroBuckets (self : HyperLogLog) : ℕ :=
  self.buckets.count 0

/-- Embedding of `HyperLogLog.estimate` (`src/hyperloglog.py` lines
87-105).  `none` models an escaping float error: division by a zero
harmonic denominator, or `math.log` of a non-positive argument. -/
noncomputable def HyperLogLog.estimate (self : HyperLogLog) : Option ℝ :=
  let m : ℝ := (self.number_of_buckets : ℝ)
  if harmonicDenom self = 0 then none
  else
    let raw_estimate := rawEstimate self
    let step2 : Option ℝ :=
      if raw_estimate ≤ 2.5 * m then
        if 0 < zeroBuckets self then
          (pylog (m / (zeroBuckets self : ℝ))).map fun lg => m * lg
        else some raw_estimate
      else some raw_estimate
    step2.bind fun est =>
      if two32 / 30 < est then
        (pylog (1 - est / two32)).map fun lg => -two32 * lg
      else some est

/-- State-passing view of `estimate`: the method only reads `self`, so
the state it leaves behind is `self` itself. -/
noncomputable def HyperLogLog.estimateRun (self : HyperLogLog) :
    Option ℝ × HyperLogLog :=
  (self.estimate, self)

/-- The estimate after the small-range step, written as a total real
value (meaningful when `number_of_buckets > 0`, where the small-range
logarithm argument is positive). -/
noncomputable def smallCorrected (self : HyperLogLog) : ℝ :=
  let m : ℝ := (self.number_of_buckets : ℝ)
  if rawEstimate self ≤ 2.5 * m ∧ 0 < zeroBuckets self then
    m * Real.log (m / (zeroBuckets self : ℝ))
  else rawEstimate self

/-- Transcription of the spec's description of `estimate` (claim C1 /
spec section 4.3), written from the spec's words: raw harmonic-mean
estimate, small-range correction when `raw ≤ 2.5 * bucket_count` with a
positive number of zero registers (kept as raw when `zero_buckets = 0`),
then large-range correction when the corrected estimate exceeds
`2^32 / 30`.  The natural logarithms are those of real analysis, defined
for positive arguments only (hence `pylog`). -/
noncomputable def estimateSpec (self : HyperLogLog) : Option ℝ :=
  let bucket_count : ℝ := (self.number_of_buckets : ℝ)
  let raw : ℝ := compute_alpha_m self.number_of_buckets * bucket_count ^ 2 /
    (self.buckets.map fun register : ℕ => (2 : ℝ) ^ (-(register : ℤ))).sum
  let zero_buckets : ℕ := self.buckets.count 0
  let corrected : Option ℝ :=
    if raw ≤ 2.5 * bucket_count ∧ 0 < zero_buckets then
      (pylog (bucket_count / (zero_buckets : ℝ))).map fun lg =>
        bucket_count * lg
    else some raw
  corrected.bind fun est =>
    if two32 / 30 < est then
      (pylog (1 - est / two32)).map fun lg => -two32 * lg
    else some est

/-- Well-formedness of an estimator state: the register array has
exactly `number_of_buckets` entries (spec section 3 invariant). -/
def HyperLogLog.wf (self : HyperLogLog) : Prop :=
  self.buckets.length = self.number_of_buckets

instance (self : HyperLogLog) : Decidable self.wf := by
  unfold HyperLogLog.wf; infer_instance

/-- States reachable from a fresh estimator with `2 ^ k` buckets by
`add` operations whose hash values are 256-bit (as SHA-256 digests are)
and by merges with other reachable estimators. -/
inductive ReachableHLL (k : ℕ) : HyperLogLog → Prop where
  | fresh : ReachableHLL k (freshHLL (2 ^ k))
  | add (s : HyperLogLog) (h : ℕ) (hh : h < 2 ^ 256) :
      ReachableHLL k s → ReachableHLL k (s.addHash h)
  | merge (s t : HyperLogLog) :
      ReachableHLL k s → ReachableHLL k t → ReachableHLL k (s.merge t).1

/-! Arithmetic of the power-of-two test `m & (m - 1) == 0`. -/

/-- For odd `m`, `m &&& (m - 1) = m - 1`: the and only clears bit 0. -/
lemma odd_land_pred {m : ℕ} (ho : m % 2 = 1) : m &&& (m - 1) = m - 1 := by
  apply Nat.eq_of_testBit_eq
  intro i
  rw [Nat.testBit_and]
  cases i with
  | zero =>
    have h1 : (m - 1) % 2 = 0 := by omega
    simp [Nat.testBit_zero, ho, h1]
  | succ j =>
    simp only [Nat.testBit_succ]
    have h2 : (m - 1) / 2 = m / 2 := by omega
    rw [h2, Bool.and_self]

/-- Doubling commutes with the `m &&& (m - 1)` computation. -/
lemma two_mul_land_pred {t : ℕ} (ht : 0 < t) :
    (2 * t) &&& (2 * t - 1) = 2 * (t &&& (t - 1)) := by
  apply Nat.eq_of_testBit_eq
  intro i
  rw [Nat.testBit_and]
  cases i with
  | zero =>
    have h1 : (2 * t) % 2 = 0 := by omega
    have h2 : (2 * (t &&& (t - 1))) % 2 = 0 := by omega
    simp [Nat.testBit_zero, h1, h2]
  | succ j =>
    simp only [Nat.testBit_succ]
    have h1 : 2 * t / 2 = t := by omega
    have h2 : (2 * t - 1) / 2 = t - 1 := by omega
    have h3 : 2 * (t &&& (t - 1)) / 2 = t &&& (t - 1) := by omega
    rw [h1, h2, h3, Nat.testBit_and]

/-- A positive number passing the `m & (m - 1) == 0` test is a power of
two. -/
lemma pow2_of_land_pred : ∀ m : ℕ, 0 < m → m &&& (m - 1) = 0 → ∃ k, m = 2 ^ k := by
  intro m
  induction m using Nat.strong_induction_on with
  | _ m ih =>
    intro hm h
    rcases Nat.lt_or_ge m 2 with h2 | h2
    · have hm1 : m = 1 := by omega
      exact ⟨0, by simp [hm1]⟩
    · rcases Nat.even_or_odd m with he | ho
      · obtain ⟨t, ht⟩ := he
        have ht2 : m = 2 * t := by omega
        have htpos : 0 < t := by omega
        rw [ht2, two_mul_land_pred htpos] at h
        have h0 : t &&& (t - 1) = 0 := by omega
        obtain ⟨k, hk⟩ := ih t (by omega) htpos h0
        exact ⟨k + 1, by rw [ht2, hk]; ring⟩
      · exfalso
        have ho1 : m % 2 = 1 := Nat.odd_iff.mp ho
        rw [odd_land_pred ho1] at h
        omega

/-- Powers of two pass the `m & (m - 1) == 0` test. -/
lemma land_pred_self_pow2 (k : ℕ) : (2 ^ k) &&& (2 ^ k - 1) = 0 := by
  rw [Nat.and_pow_two_sub_one_eq_mod]
  exact Nat.mod_self _

/-- The Python power-of-two test, characterised. -/
lemma land_pred_eq_zero_iff {m : ℕ} (hm : 0 < m) :
    m &&& (m - 1) = 0 ↔ ∃ k, m = 2 ^ k :=
  ⟨pow2_of_land_pred m hm, by rintro ⟨k, rfl⟩; exact land_pred_self_pow2 k⟩

/-- Being an integer power of two transfers between `ℤ` and `toNat`. -/
lemma int_pow2_iff_toNat {n : ℤ} (hpos : 0 < n) :
    (∃ k : ℕ, n = (2:ℤ) ^ k) ↔ ∃ k : ℕ, n.toNat = 2 ^ k := by
  constructor
  · rintro ⟨k, rfl⟩
    refine ⟨k, ?_⟩
    rw [show ((2:ℤ) ^ k) = ((2 ^ k : ℕ) : ℤ) by push_cast; ring, Int.toNat_natCast]
  · rintro ⟨k, hk⟩
    refine ⟨k, ?_⟩
    rw [← Int.toNat_of_nonneg hpos.le, hk]
    push_cast
    ring

/-! Evaluation of the estimator on a fresh state. -/

lemma harmonicDenom_fresh (m : ℕ) : harmonicDenom (freshHLL m) = m := by
  rw [harmonicDenom]
  show ((List.replicate m 0).map fun register : ℕ => (2:ℝ) ^ (-(register : ℤ))).sum = m
  rw [List.map_replicate]
  norm_num [List.sum_replicate]

lemma zeroBuckets_fresh (m : ℕ) : zeroBuckets (freshHLL m) = m := by
  simp [zeroBuckets, freshHLL]

lemma compute_alpha_m_nonneg (m : ℕ) : 0 ≤ compute_alpha_m m := by
  unfold compute_alpha_m
  split_ifs <;> positivity

lemma compute_alpha_m_le (m : ℕ) : compute_alpha_m m ≤ 2.5 := by
  unfold compute_alpha_m
  split_ifs <;> try norm_num
  have hb : (1:ℝ) ≤ 1 + 1.079 / (m:ℝ) := by
    have h0 : (0:ℝ) ≤ 1.079 / (m:ℝ) := by positivity
    linarith
  have h1 := div_le_self (by norm_num : (0:ℝ) ≤ 0.7213) hb
  linarith

lemma two32_eq : two32 = 4294967296 := by
  norm_num [two32, Nat.shiftLeft_eq]

lemma rawEstimate_fresh (m : ℕ) (hm : 0 < m) :
    rawEstimate (freshHLL m) = compute_alpha_m m * m := by
  have hm' : (0:ℝ) < m := by exact_mod_cast hm
  rw [rawEstimate, harmonicDenom_fresh]
  show compute_alpha_m m * (m:ℝ) ^ 2 / m = compute_alpha_m m * m
  rw [pow_two, ← mul_assoc, mul_div_assoc]
  rw [div_self hm'.ne', mul_one]

/-- On a fresh estimator the small-range correction applies with
`zero_buckets = m`, giving `m * ln 1 = 0`. -/
lemma estimate_fresh (m : ℕ) (hm : 0 < m) : (freshHLL m).estimate = some 0 := by
  have hm' : (0:ℝ) < m := by exact_mod_cast hm
  have hmb : (freshHLL m).number_of_buckets = m := rfl
  have hcond : rawEstimate (freshHLL m) ≤ 2.5 * (m : ℝ) := by
    rw [rawEstimate_fresh m hm]
    exact mul_le_mul_of_nonneg_right (compute_alpha_m_le m) hm'.le
  rw [HyperLogLog.estimate]
  simp only [hmb, harmonicDenom_fresh, zeroBuckets_fresh]
  rw [if_neg hm'.ne', if_pos hcond, if_pos hm, div_self hm'.ne']
  rw [pylog, if_pos one_pos, Real.log_one]
  simp only [mul_zero, Option.map_some', Option.some_bind]
  rw [if_neg]
  rw [two32_eq]
  norm_num

/-- Construction fails with `InvalidConfiguration` exactly for integer
arguments that are not positive powers of two. -/
lemma new_eq_error_iff (n : ℤ) :
    HyperLogLog.new n = .error .invalidConfiguration ↔
      ¬ ∃ k : ℕ, n = (2:ℤ) ^ k := by
  by_cases h0 : n ≤ 0
  · rw [HyperLogLog.new, if_pos h0]
    constructor
    · rintro - ⟨k, hk⟩
      have hp : (0:ℤ) < 2 ^ k := by positivity
      omega
    · intro _
      rfl
  · have hpos : 0 < n := by omega
    have hpos' : 0 < n.toNat := by omega
    rw [HyperLogLog.new, if_neg h0]
    by_cases h1 : n.toNat &&& (n.toNat - 1) = 0
    · rw [if_pos h1]
      constructor
      · intro hcontra
        cases hcontra
      · intro hnp
        exact absurd ((int_pow2_iff_toNat hpos).mpr
          ((land_pred_eq_zero_iff hpos').mp h1)) hnp
    · rw [if_neg h1]
      constructor
      · rintro - ⟨k, hk⟩
        exact h1 ((land_pred_eq_zero_iff hpos').mpr
          ((int_pow2_iff_toNat hpos).mp ⟨k, hk⟩))
      · intro _
        rfl

/-- Construction on a positive power of two succeeds with the fresh
all-zero state. -/
lemma new_eq_ok_pow2 {n : ℤ} (k : ℕ) (hk : n = (2:ℤ) ^ k) :
    HyperLogLog.new n = .ok (freshHLL n.toNat) ∧ 0 < n.toNat := by
  have hpos : 0 < n := by rw [hk]; positivity
  have hpos' : 0 < n.toNat := by omega
  have h1 : n.toNat &&& (n.toNat - 1) = 0 :=
    (land_pred_eq_zero_iff hpos').mpr ((int_pow2_iff_toNat hpos).mp ⟨k, hk⟩)
  refine ⟨?_, hpos'⟩
  rw [HyperLogLog.new, if_neg (by omega), if_pos h1]

/-- C2: construction fails with `InvalidConfiguration` exactly for
integer arguments that are not positive powers of two; on a positive
power of two it succeeds, every register of the fresh estimator is zero,
and its estimate is zero. -/
theorem C2_construction_iff_power_of_two (n : ℤ) :
    (HyperLogLog.new n = .error .invalidConfiguration ↔
      ¬ ∃ k : ℕ, n = (2:ℤ) ^ k)
    ∧ (∀ k : ℕ, n = (2:ℤ) ^ k →
        HyperLogLog.new n = .ok (freshHLL n.toNat)
        ∧ (freshHLL n.toNat).buckets = List.replicate n.toNat 0
        ∧ (freshHLL n.toNat).estimate = some 0) := by
  refine ⟨new_eq_error_iff n, fun k hk => ?_⟩
  obtain ⟨hok, hpos'⟩ := new_eq_ok_pow2 k hk
  exact ⟨hok, rfl, estimate_fresh n.toNat hpos'⟩

/-- Witness for C2 at `bucket_count = 512 = 2 ^ 9`. -/
theorem C2_construction_iff_power_of_two_witness :
    ((512:ℤ) = (2:ℤ) ^ (9:ℕ))
    ∧ HyperLogLog.new 512 = .ok (freshHLL (512:ℤ).toNat)
    ∧ (freshHLL (512:ℤ).toNat).estimate = some 0 :=
  ⟨by norm_num,
   ((C2_construction_iff_power_of_two 512).2 9 (by norm_num)).1,
   ((C2_construction_iff_power_of_two 512).2 9 (by norm_num)).2.2⟩

/-! Claim C6: the warning path of `_compute_alpha_m`. -/

lemma not_pow2_100 : ¬ ∃ k : ℕ, (100:ℕ) = 2 ^ k := fun ⟨k, hk⟩ =>
  absurd ((land_pred_eq_zero_iff (by norm_num)).mpr ⟨k, hk⟩) (by decide)

lemma not_int_pow2_100 : ¬ ∃ k : ℕ, (100:ℤ) = (2:ℤ) ^ k := fun h =>
  not_pow2_100 ((int_pow2_iff_toNat (by norm_num)).mp h)

/-- C6 counterexample: `bucket_count = 100` is smaller than 128 and not
a power of two, yet construction rejects it with `InvalidConfiguration`
instead of accepting it with a warning — the power-of-two assert in
`__init__` runs before `_compute_alpha_m` is ever called. -/
theorem C6_counterexample_new_100_rejected :
    HyperLogLog.new 100 = .error .invalidConfiguration
    ∧ (100:ℕ) < 128
    ∧ ¬ ∃ k : ℕ, (100:ℕ) = 2 ^ k :=
  ⟨rfl, by norm_num, not_pow2_100⟩

/-- C6 amended: a non-power-of-two bucket count never reaches the
warning through construction — `new` rejects it with
`InvalidConfiguration` first.  The warning condition itself (inside
`_compute_alpha_m`, reachable only by calling that helper directly) does
hold for non-power-of-two values smaller than 128, and the helper then
returns `0.7213 / (1 + 1.079 / m)`. -/
theorem C6_warning_unreachable_from_new (n : ℤ) (m : ℕ)
    (hn : ¬ ∃ k : ℕ, n = (2:ℤ) ^ k)
    (hm : 0 < m) (hmp : ¬ ∃ k : ℕ, m = 2 ^ k) (hsmall : m < 128) :
    HyperLogLog.new n = .error .invalidConfiguration
    ∧ alphaWarns m = true
    ∧ compute_alpha_m m = 0.7213 / (1 + 1.079 / (m : ℝ)) := by
  refine ⟨(new_eq_error_iff n).mpr hn, ?_, ?_⟩
  · have hne : 2 ^ Nat.log2 m ≠ m := fun h => hmp ⟨Nat.log2 m, h.symm⟩
    simp [alphaWarns, hne, hsmall]
  · have h16 : m ≠ 16 := fun h => hmp ⟨4, by rw [h]; norm_num⟩
    have h32 : m ≠ 32 := fun h => hmp ⟨5, by rw [h]; norm_num⟩
    have h64 : m ≠ 64 := fun h => hmp ⟨6, by rw [h]; norm_num⟩
    rw [compute_alpha_m, if_neg h16, if_neg h32, if_neg h64]

/-- Witness for the amended C6 at `bucket_count = 100`. -/
theorem C6_warning_unreachable_from_new_witness :
    HyperLogLog.new 100 = .error .invalidConfiguration
    ∧ alphaWarns 100 = true
    ∧ compute_alpha_m 100 = 0.7213 / (1 + 1.079 / (100 : ℝ)) :=
  C6_warning_unreachable_from_new 100 100 not_int_pow2_100 (by norm_num)
    not_pow2_100 (by norm_num)

/-! Claim C1: the estimation formula, compared step by step with the
spec's description. -/

/-- On a non-empty register list the harmonic denominator is strictly
positive (every summand `2 ^ -r` is). -/
lemma harmonicDenom_pos (self : HyperLogLog) (hne : self.buckets ≠ []) :
    0 < harmonicDenom self := by
  apply List.sum_pos
  · intro x hx
    simp only [List.mem_map] at hx
    obtain ⟨r, -, rfl⟩ := hx
    positivity
  · intro h
    exact hne (List.map_eq_nil_iff.mp h)

/-- C1: for every estimator state with at least one register (every
constructed estimator), `estimate` computes exactly the spec's pipeline:
raw harmonic-mean estimate, small-range linear counting when
`raw ≤ 2.5 * bucket_count` and some register is zero (raw kept when no
register is zero), then large-range correction when the corrected
estimate exceeds `2^32 / 30`, and returns the final value. -/
theorem C1_estimate_formula (self : HyperLogLog) (hne : self.buckets ≠ []) :
    self.estimate = estimateSpec self := by
  have hh := harmonicDenom_pos self hne
  rw [HyperLogLog.estimate, estimateSpec, if_neg hh.ne']
  have hraw : compute_alpha_m self.number_of_buckets *
      (self.number_of_buckets : ℝ) ^ 2 /
      (self.buckets.map fun register : ℕ => (2:ℝ) ^ (-(register : ℤ))).sum =
      rawEstimate self := rfl
  rw [hraw]
  have hz : self.buckets.count 0 = zeroBuckets self := rfl
  rw [hz]
  dsimp only
  congr 1
  by_cases h1 : rawEstimate self ≤ 2.5 * (self.number_of_buckets : ℝ)
  · by_cases h2 : 0 < zeroBuckets self
    · rw [if_pos h1, if_pos h2, if_pos ⟨h1, h2⟩]
    · rw [if_pos h1, if_neg h2, if_neg fun hc => h2 hc.2]
  · rw [if_neg h1, if_neg fun hc => h1 hc.1]

/-- Witness for C1 on the concrete state with one zero register. -/
theorem C1_estimate_formula_witness :
    (freshHLL 1).buckets ≠ []
    ∧ (freshHLL 1).estimate = estimateSpec (freshHLL 1) :=
  ⟨by decide, C1_estimate_formula (freshHLL 1) (by decide)⟩

/-! Register-list access helpers. -/

lemma getD_set_self {l : List ℕ} {i : ℕ} {a : ℕ} (h : i < l.length) :
    (l.set i a).getD i 0 = a := by
  simp [List.getD_eq_getElem?_getD, List.getElem?_set_self h]

lemma getD_set_le {l : List ℕ} {j a : ℕ} (hka : l.getD j 0 ≤ a) (i : ℕ) :
    l.getD i 0 ≤ (l.set j a).getD i 0 := by
  by_cases hij : i = j
  · subst hij
    by_cases hl : i < l.length
    · rw [getD_set_self hl]
      exact hka
    · rw [List.set_eq_of_length_le (le_of_not_lt hl)]
  · rw [List.getD_eq_getElem?_getD, List.getD_eq_getElem?_getD,
      List.getElem?_set_ne fun hji => hij hji.symm]

lemma mergeRegs_length (s t : HyperLogLog) :
    (mergeRegs s t).buckets.length = s.number_of_buckets := by
  simp [mergeRegs]

lemma mergeRegs_getD (s t : HyperLogLog) {i : ℕ}
    (hi : i < s.number_of_buckets) :
    (mergeRegs s t).buckets.getD i 0 =
      max (s.buckets.getD i 0) (t.buckets.getD i 0) := by
  rw [mergeRegs]
  simp [List.getD_eq_getElem?_getD, List.getElem?_range hi]

/-- C3: `merge` reports `IncompatibleShape` exactly when the bucket
counts differ, in which case the receiver's registers are untouched;
with equal bucket counts it fully applies the element-wise maximum. -/
theorem C3_merge_shape_check (self other : HyperLogLog) :
    ((self.merge other).2 = some .incompatibleShape ↔
      self.number_of_buckets ≠ other.number_of_buckets)
    ∧ (self.number_of_buckets ≠ other.number_of_buckets →
        (self.merge other).1 = self)
    ∧ (self.number_of_buckets = other.number_of_buckets →
        (self.merge other).2 = none
        ∧ (self.merge other).1.buckets.length = self.number_of_buckets
        ∧ ∀ i < self.number_of_buckets,
            (self.merge other).1.buckets.getD i 0 =
              max (self.buckets.getD i 0) (other.buckets.getD i 0)) := by
  by_cases h : self.number_of_buckets = other.number_of_buckets
  · rw [HyperLogLog.merge, if_pos h]
    exact ⟨by simp [h], fun hc => absurd h hc,
      fun _ => ⟨rfl, mergeRegs_length self other,
        fun i hi => mergeRegs_getD self other hi⟩⟩
  · rw [HyperLogLog.merge, if_neg h]
    exact ⟨by simp [h], fun _ => rfl, fun hc => absurd hc h⟩

/-- Witness for C3: merging 16 buckets into 32 is rejected without
touching the receiver; merging equal shapes succeeds. -/
theorem C3_merge_shape_check_witness :
    ((freshHLL 16).merge (freshHLL 32)).1 = freshHLL 16
    ∧ ((freshHLL 16).merge (freshHLL 32)).2 = some .incompatibleShape
    ∧ ((freshHLL 16).merge (freshHLL 16)).2 = none :=
  ⟨(C3_merge_shape_check (freshHLL 16) (freshHLL 32)).2.1 (by decide),
   (C3_merge_shape_check (freshHLL 16) (freshHLL 32)).1.mpr (by decide),
   ((C3_merge_shape_check (freshHLL 16) (freshHLL 16)).2.2 rfl).1⟩

/-! Claim C7: idempotence of `add`. -/

lemma addHash_idem (s : HyperLogLog) (h : ℕ) :
    (s.addHash h).addHash h = s.addHash h := by
  rw [HyperLogLog.addHash, HyperLogLog.addHash]
  dsimp only
  congr 1
  by_cases hlen : (h &&& (s.number_of_buckets - 1)) < s.buckets.length
  · rw [getD_set_self hlen, List.set_set]
    congr 1
    rw [max_assoc, max_self]
  · have hle := le_of_not_lt hlen
    simp only [List.set_eq_of_length_le hle]

/-- C7: adding the same item twice leaves exactly the state reached by
adding it once — the same hash gives the same bucket and rank, and the
`max` update is idempotent. -/
theorem C7_add_idempotent (hashFn : String → ℕ) (self : HyperLogLog)
    (item : String) :
    (self.add hashFn item).add hashFn item = self.add hashFn item :=
  addHash_idem self (hashFn item)

/-! Claim C9: the operations preserve the register-array invariants. -/

/-- C9: `add` and `merge` keep the register array at exactly
`number_of_buckets` entries and never decrease any register
(`max`-only updates); `estimate` only reads the state. -/
theorem C9_operations_preserve_invariants (self other : HyperLogLog)
    (h : ℕ) (hwf : self.wf) :
    ((self.addHash h).wf
      ∧ ∀ i, self.buckets.getD i 0 ≤ (self.addHash h).buckets.getD i 0)
    ∧ ((self.merge other).1.wf
      ∧ ∀ i, self.buckets.getD i 0 ≤ (self.merge other).1.buckets.getD i 0)
    ∧ self.estimateRun.2 = self := by
  refine ⟨⟨?_, ?_⟩, ⟨?_, ?_⟩, rfl⟩
  · show (self.buckets.set _ _).length = self.number_of_buckets
    rw [List.length_set]
    exact hwf
  · intro i
    exact getD_set_le (le_max_left _ _) i
  · rw [HyperLogLog.merge]
    by_cases hmo : self.number_of_buckets = other.number_of_buckets
    · rw [if_pos hmo]
      show (mergeRegs self other).buckets.length = _
      rw [mergeRegs_length]
      rfl
    · rw [if_neg hmo]
      exact hwf
  · intro i
    rw [HyperLogLog.merge]
    by_cases hmo : self.number_of_buckets = other.number_of_buckets
    · rw [if_pos hmo]
      by_cases hi : i < self.number_of_buckets
      · show _ ≤ (mergeRegs self other).buckets.getD i 0
        rw [mergeRegs_getD self other hi]
        exact le_max_left _ _
      · have hwf' : self.buckets.length = self.number_of_buckets := hwf
        have h1 : self.buckets.getD i 0 = 0 :=
          List.getD_eq_default _ _ (by omega)
        rw [h1]
        exact Nat.zero_le _
    · rw [if_neg hmo]

/-- Witness for C9 on a concrete two-bucket estimator. -/
theorem C9_operations_preserve_invariants_witness :
    (freshHLL 2).wf
    ∧ ((freshHLL 2).addHash 3).wf
    ∧ (((freshHLL 2).merge (freshHLL 2)).1).wf :=
  ⟨by decide,
   (C9_operations_preserve_invariants (freshHLL 2) (freshHLL 2) 3 (by decide)).1.1,
   (C9_operations_preserve_invariants (freshHLL 2) (freshHLL 2) 3 (by decide)).2.1.1⟩

/-! Claim C4: the rank computed by `_count_leading_zeroes`. -/

lemma clzGo_eq (value count : ℕ) :
    clzGo value count = if 0 < value then
      (if value &&& 1 = 1 then count else clzGo (value >>> 1) (count + 1))
    else count := by
  rw [clzGo.eq_def]
  rfl

lemma shiftRight_one_eq (v : ℕ) : v >>> 1 = v / 2 := by
  simp [Nat.shiftRight_succ, Nat.shiftRight_zero]

/-- For positive input the loop returns `p + c` where `p` is the 0-based
position of the lowest set bit. -/
lemma clzGo_spec (v : ℕ) : ∀ c, 0 < v → ∃ p, clzGo v c = p + c
    ∧ v.testBit p = true ∧ ∀ j < p, v.testBit j = false := by
  induction v using Nat.strong_induction_on with
  | _ v ih =>
    intro c hv
    rw [clzGo_eq, if_pos hv]
    by_cases hodd : v &&& 1 = 1
    · rw [if_pos hodd]
      rw [Nat.and_one_is_mod] at hodd
      refine ⟨0, by omega, ?_, by omega⟩
      rw [Nat.testBit_zero]
      simp [hodd]
    · rw [if_neg hodd]
      have heven : v % 2 = 0 := by
        rw [Nat.and_one_is_mod] at hodd
        omega
      have hlt : v >>> 1 < v := by
        rw [shiftRight_one_eq]
        exact Nat.div_lt_self hv (by norm_num)
      have hv2 : 0 < v >>> 1 := by
        rw [shiftRight_one_eq]
        omega
      obtain ⟨p, hp1, hp2, hp3⟩ := ih (v >>> 1) hlt (c + 1) hv2
      rw [shiftRight_one_eq] at hp2 hp3
      refine ⟨p + 1, by omega, ?_, ?_⟩
      · rw [Nat.testBit_succ]
        exact hp2
      · intro j hj
        cases j with
        | zero =>
          rw [Nat.testBit_zero]
          simp [heven]
        | succ j' =>
          rw [Nat.testBit_succ]
          exact hp3 j' (by omega)

/-- The `while value > 0` loop exits immediately on input 0. -/
lemma count_leading_zeroes_zero : count_leading_zeroes 0 = 1 := by
  rw [count_leading_zeroes, clzGo_eq]
  norm_num

/-- Rank of a positive value: one plus the 0-based position of its
lowest set bit. -/
lemma count_leading_zeroes_spec {v : ℕ} (hv : 0 < v) :
    ∃ p, count_leading_zeroes v = p + 1 ∧ v.testBit p = true
      ∧ ∀ j < p, v.testBit j = false := by
  obtain ⟨p, h1, h2, h3⟩ := clzGo_spec v 1 hv
  exact ⟨p, by rw [count_leading_zeroes]; omega, h2, h3⟩

/-- C4 counterexample: at remainder 0 the rank computation terminates at
once with value 1 — the loop condition is `value > 0`, so it does not
grow without bound for a zero remainder. -/
theorem C4_counterexample_rank_of_zero_is_one :
    count_leading_zeroes 0 = 1 :=
  count_leading_zeroes_zero

/-- C4 amended: `add` stores, via `max`, into register
`h & (bucket_count - 1)` the rank of `remainder = h >> log2(bucket_count)`;
for a nonzero remainder the rank is the 1-based position of the lowest
set bit of the remainder, and for a zero remainder the rank is exactly 1
(the `while value > 0` loop body never runs). -/
theorem C4_add_rank_lowest_set_bit (self : HyperLogLog) (hash_value : ℕ) :
    (self.addHash hash_value).buckets =
      self.buckets.set (hash_value &&& (self.number_of_buckets - 1))
        (max (self.buckets.getD (hash_value &&& (self.number_of_buckets - 1)) 0)
          (count_leading_zeroes
            (hash_value >>> Nat.log2 self.number_of_buckets)))
    ∧ (0 < hash_value >>> Nat.log2 self.number_of_buckets →
        ∃ p, count_leading_zeroes
              (hash_value >>> Nat.log2 self.number_of_buckets) = p + 1
          ∧ (hash_value >>> Nat.log2 self.number_of_buckets).testBit p = true
          ∧ ∀ j < p,
              (hash_value >>> Nat.log2 self.number_of_buckets).testBit j = false)
    ∧ count_leading_zeroes 0 = 1 :=
  ⟨rfl, fun hv => count_leading_zeroes_spec hv, count_leading_zeroes_zero⟩

/-- Witness for C4 with 4 buckets and hash value 12 (remainder 3). -/
theorem C4_add_rank_lowest_set_bit_witness :
    (0 < (12:ℕ) >>> Nat.log2 (freshHLL 4).number_of_buckets)
    ∧ ∃ p, count_leading_zeroes
            ((12:ℕ) >>> Nat.log2 (freshHLL 4).number_of_buckets) = p + 1
        ∧ ((12:ℕ) >>> Nat.log2 (freshHLL 4).number_of_buckets).testBit p = true
        ∧ ∀ j < p,
            ((12:ℕ) >>> Nat.log2 (freshHLL 4).number_of_buckets).testBit j = false := by
  have hlog : Nat.log2 (freshHLL 4).number_of_buckets = 2 := by
    show Nat.log2 4 = 2
    rw [show (4:ℕ) = 2 ^ 2 by norm_num, Nat.log2_two_pow]
  exact ⟨by rw [hlog]; decide,
    (C4_add_rank_lowest_set_bit (freshHLL 4) 12).2.1 (by rw [hlog]; decide)⟩

/-! Claim C5: which float errors can escape `estimate`. -/

/-- For a non-empty register list the first two steps of `estimate`
never fail, and the result is determined by `smallCorrected`. -/
lemma estimate_eq_of_pos (self : HyperLogLog)
    (hne : self.buckets ≠ []) (hm : 0 < self.number_of_buckets) :
    self.estimate =
      (if two32 / 30 < smallCorrected self then
        (pylog (1 - smallCorrected self / two32)).map fun lg => -two32 * lg
      else some (smallCorrected self)) := by
  have hh := harmonicDenom_pos self hne
  have hm' : (0:ℝ) < (self.number_of_buckets : ℝ) := by exact_mod_cast hm
  rw [HyperLogLog.estimate, if_neg hh.ne']
  try dsimp only
  have hstep : (if rawEstimate self ≤ 2.5 * (self.number_of_buckets:ℝ) then
      (if 0 < zeroBuckets self then
        (pylog ((self.number_of_buckets:ℝ) / (zeroBuckets self : ℝ))).map
          (fun lg => (self.number_of_buckets:ℝ) * lg)
      else some (rawEstimate self))
    else some (rawEstimate self)) = some (smallCorrected self) := by
    rw [smallCorrected]
    try dsimp only
    by_cases h1 : rawEstimate self ≤ 2.5 * (self.number_of_buckets:ℝ)
    · by_cases h2 : 0 < zeroBuckets self
      · rw [if_pos h1, if_pos h2, if_pos ⟨h1, h2⟩]
        have hz' : (0:ℝ) < (zeroBuckets self : ℝ) := by exact_mod_cast h2
        rw [pylog, if_pos (div_pos hm' hz'), Option.map_some']
      · rw [if_pos h1, if_neg h2, if_neg fun hc => h2 hc.2]
    · rw [if_neg h1, if_neg fun hc => h1 hc.1]
  rw [hstep, Option.some_bind]

lemma zeroBuckets_le (self : HyperLogLog) (hwf : self.wf) :
    zeroBuckets self ≤ self.number_of_buckets := by
  have hwf' : self.buckets.length = self.number_of_buckets := hwf
  rw [zeroBuckets, ← hwf']
  exact List.count_le_length 0 self.buckets

lemma rawEstimate_nonneg (self : HyperLogLog) : 0 ≤ rawEstimate self := by
  rw [rawEstimate]
  apply div_nonneg
  · exact mul_nonneg (compute_alpha_m_nonneg _) (by positivity)
  · rw [harmonicDenom]
    apply List.sum_nonneg
    intro x hx
    simp only [List.mem_map] at hx
    obtain ⟨r, -, rfl⟩ := hx
    positivity

lemma smallCorrected_nonneg (self : HyperLogLog) (hwf : self.wf) :
    0 ≤ smallCorrected self := by
  rw [smallCorrected]
  try dsimp only
  split_ifs with h
  · obtain ⟨h1, h2⟩ := h
    have hz' : (0:ℝ) < (zeroBuckets self : ℝ) := by exact_mod_cast h2
    have hle : (zeroBuckets self : ℝ) ≤ (self.number_of_buckets : ℝ) := by
      exact_mod_cast zeroBuckets_le self hwf
    have hlog : 0 ≤ Real.log ((self.number_of_buckets:ℝ) / (zeroBuckets self:ℝ)) :=
      Real.log_nonneg ((one_le_div hz').mpr hle)
    exact mul_nonneg (by positivity) hlog
  · exact rawEstimate_nonneg self

/-- C5 amended: on every well-formed estimator state `estimate` returns
a non-negative value whenever it returns one, and the only float error
that can escape is the large-range logarithm: the harmonic denominator
and the small-range logarithm are always safe, and `estimate` fails
exactly when the small-range-corrected estimate exceeds `2^32 / 30` and
`1 - estimate / 2^32` is not positive (the estimate reached `2^32`). -/
theorem C5_estimate_safety (self : HyperLogLog) (hwf : self.wf)
    (hm : 0 < self.number_of_buckets) :
    (∀ v, self.estimate = some v → 0 ≤ v)
    ∧ (self.estimate = none ↔
        two32 / 30 < smallCorrected self
        ∧ 1 - smallCorrected self / two32 ≤ 0) := by
  have hwf' : self.buckets.length = self.number_of_buckets := hwf
  have hne : self.buckets ≠ [] := by
    intro hnil
    rw [hnil] at hwf'
    simp at hwf'
    omega
  have h32 : (0:ℝ) < two32 := by
    rw [two32_eq]
    norm_num
  have heq := estimate_eq_of_pos self hne hm
  constructor
  · intro v hv
    rw [heq] at hv
    by_cases hbig : two32 / 30 < smallCorrected self
    · rw [if_pos hbig, pylog] at hv
      by_cases harg : 0 < 1 - smallCorrected self / two32
      · rw [if_pos harg, Option.map_some'] at hv
        have hv' : v = -two32 * Real.log (1 - smallCorrected self / two32) :=
          (Option.some.inj hv).symm
        have hscpos : 0 < smallCorrected self :=
          lt_trans (div_pos h32 (by norm_num)) hbig
        have harg1 : 1 - smallCorrected self / two32 < 1 := by
          have hq : 0 < smallCorrected self / two32 := div_pos hscpos h32
          linarith
        have hlog : Real.log (1 - smallCorrected self / two32) < 0 :=
          Real.log_neg harg harg1
        have h2 := mul_pos h32 (neg_pos.mpr hlog)
        rw [mul_neg] at h2
        rw [hv', neg_mul]
        linarith
      · rw [if_neg harg] at hv
        simp at hv
    · rw [if_neg hbig] at hv
      rw [← Option.some.inj hv]
      exact smallCorrected_nonneg self hwf
  · rw [heq]
    constructor
    · intro hnone
      by_cases hbig : two32 / 30 < smallCorrected self
      · rw [if_pos hbig, pylog] at hnone
        by_cases harg : 0 < 1 - smallCorrected self / two32
        · rw [if_pos harg] at hnone
          simp at hnone
        · exact ⟨hbig, by linarith [not_lt.mp harg]⟩
      · rw [if_neg hbig] at hnone
        simp at hnone
    · rintro ⟨hbig, harg⟩
      rw [if_pos hbig, pylog, if_neg (not_lt.mpr harg), Option.map_none']

/-- C5 counterexample: on the register state `[50]` with one bucket the
corrected estimate is about `3.9 * 10^14 > 2^32`, the large-range
correction takes `math.log` of a negative number, and the float domain
error escapes (`estimate` is `none`), refuting "never raises" over all
register states. -/
theorem C5_counterexample_estimate_raises :
    HyperLogLog.estimate ⟨1, [50]⟩ = none := by
  have hraw : rawEstimate ⟨1, [50]⟩ = 0.7213 / 2.079 * 2 ^ (50:ℕ) := by
    rw [rawEstimate, harmonicDenom]
    show compute_alpha_m 1 * ((1:ℕ):ℝ) ^ 2 /
      (List.map (fun register : ℕ => (2:ℝ) ^ (-(register : ℤ))) [50]).sum = _
    rw [compute_alpha_m]
    norm_num
  have hsc : smallCorrected ⟨1, [50]⟩ = rawEstimate ⟨1, [50]⟩ := by
    rw [smallCorrected]
    try dsimp only
    rw [if_neg]
    rintro ⟨-, h2⟩
    revert h2
    decide
  have hbig : two32 / 30 < smallCorrected ⟨1, [50]⟩ := by
    rw [hsc, hraw, two32_eq]
    norm_num
  have harg : ¬ (0 < 1 - smallCorrected ⟨1, [50]⟩ / two32) := by
    rw [hsc, hraw, two32_eq]
    push_neg
    norm_num
  have heq := estimate_eq_of_pos ⟨1, [50]⟩ (by simp) (by norm_num)
  rw [heq, if_pos hbig, pylog, if_neg harg, Option.map_none']

/-- Witness for the amended C5 on the fresh one-bucket estimator. -/
theorem C5_estimate_safety_witness :
    (freshHLL 1).wf ∧ ∀ v, (freshHLL 1).estimate = some v → 0 ≤ v :=
  ⟨by decide, (C5_estimate_safety (freshHLL 1) (by decide) (by decide)).1⟩

/-! Claim C8: adding two streams into one estimator versus merging two
estimators fed separately. -/

lemma list_eq_of_getD {l₁ l₂ : List ℕ} (hlen : l₁.length = l₂.length)
    (h : ∀ i < l₁.length, l₁.getD i 0 = l₂.getD i 0) : l₁ = l₂ := by
  apply List.ext_getElem hlen
  intro i h1 h2
  have hi := h i h1
  rw [List.getD_eq_getElem _ _ h1, List.getD_eq_getElem _ _ h2] at hi
  exact hi

lemma getD_set_ne {l : List ℕ} {i j a : ℕ} (hij : i ≠ j) :
    (l.set i a).getD j 0 = l.getD j 0 := by
  rw [List.getD_eq_getElem?_getD, List.getD_eq_getElem?_getD,
    List.getElem?_set_ne hij]

lemma getD_replicate_zero (n i : ℕ) : (List.replicate n 0).getD i 0 = 0 := by
  rcases Nat.lt_or_ge i n with hlt | hge
  · rw [List.getD_eq_getElem _ _ (by simpa using hlt)]
    exact List.getElem_replicate _ _
  · exact List.getD_eq_default _ _ (by simpa using hge)

lemma addHash_number (s : HyperLogLog) (h : ℕ) :
    (s.addHash h).number_of_buckets = s.number_of_buckets := rfl

lemma mergeRegs_number (s t : HyperLogLog) :
    (mergeRegs s t).number_of_buckets = s.number_of_buckets := rfl

lemma addHash_length (s : HyperLogLog) (h : ℕ) :
    (s.addHash h).buckets.length = s.buckets.length := by
  show (s.buckets.set _ _).length = s.buckets.length
  rw [List.length_set]

lemma addHash_wf (s : HyperLogLog) (h : ℕ) (hwf : s.wf) : (s.addHash h).wf := by
  show (s.addHash h).buckets.length = (s.addHash h).number_of_buckets
  rw [addHash_length, addHash_number]
  exact hwf

/-- Full description of a register after `addHash`. -/
lemma addHash_getD (s : HyperLogLog) (h i : ℕ) :
    (s.addHash h).buckets.getD i 0 =
      if i = h &&& (s.number_of_buckets - 1) then
        (if i < s.buckets.length then
          max (s.buckets.getD i 0)
            (count_leading_zeroes (h >>> Nat.log2 s.number_of_buckets))
        else 0)
      else s.buckets.getD i 0 := by
  by_cases hieq : i = h &&& (s.number_of_buckets - 1)
  · rw [if_pos hieq, hieq]
    by_cases hlt : h &&& (s.number_of_buckets - 1) < s.buckets.length
    · rw [if_pos hlt]
      exact getD_set_self hlt
    · rw [if_neg hlt]
      show (s.buckets.set _ _).getD _ 0 = 0
      rw [List.set_eq_of_length_le (le_of_not_lt hlt)]
      exact List.getD_eq_default _ _ (le_of_not_lt hlt)
  · rw [if_neg hieq]
    exact getD_set_ne fun hcon => hieq hcon.symm

/-- Full description of a register after a successful register merge. -/
lemma mergeRegs_getD_full (s t : HyperLogLog) (i : ℕ) :
    (mergeRegs s t).buckets.getD i 0 =
      if i < s.number_of_buckets then
        max (s.buckets.getD i 0) (t.buckets.getD i 0)
      else 0 := by
  by_cases hi : i < s.number_of_buckets
  · rw [if_pos hi, mergeRegs_getD s t hi]
  · rw [if_neg hi]
    exact List.getD_eq_default _ _ (by rw [mergeRegs_length]; omega)

/-- Adding into a register-wise maximum equals taking the maximum with
the addition done on the second operand. -/
lemma addHash_mergeRegs (s t : HyperLogLog) (h : ℕ)
    (hm : s.number_of_buckets = t.number_of_buckets)
    (hpos : 0 < s.number_of_buckets) (hwf : t.wf) :
    (mergeRegs s t).addHash h = mergeRegs s (t.addHash h) := by
  have hwf' : t.buckets.length = t.number_of_buckets := hwf
  have hidx : h &&& (s.number_of_buckets - 1) ≤ s.number_of_buckets - 1 :=
    Nat.and_le_right
  apply HyperLogLog.ext
  · rfl
  · apply list_eq_of_getD
    · show ((mergeRegs s t).addHash h).buckets.length =
        (mergeRegs s (t.addHash h)).buckets.length
      rw [addHash_length, mergeRegs_length, mergeRegs_length]
    · intro i hi
      rw [addHash_length, mergeRegs_length] at hi
      simp only [addHash_getD, mergeRegs_getD_full, mergeRegs_number,
        addHash_number, mergeRegs_length, addHash_length, hwf', ← hm]
      split_ifs <;> first
        | rfl
        | omega

lemma foldl_add_number (hashFn : String → ℕ) (l : List String)
    (s : HyperLogLog) :
    (l.foldl (HyperLogLog.add hashFn) s).number_of_buckets =
      s.number_of_buckets := by
  induction l generalizing s with
  | nil => rfl
  | cons x l ih =>
    rw [List.foldl_cons, ih]
    rfl

lemma foldl_add_wf (hashFn : String → ℕ) (l : List String)
    (s : HyperLogLog) (hwf : s.wf) :
    (l.foldl (HyperLogLog.add hashFn) s).wf := by
  induction l generalizing s with
  | nil => exact hwf
  | cons x l ih =>
    rw [List.foldl_cons]
    exact ih _ (addHash_wf s (hashFn x) hwf)

lemma freshHLL_wf (m : ℕ) : (freshHLL m).wf := by
  show (List.replicate m 0).length = m
  rw [List.length_replicate]

/-- Folding a stream of adds over a register-wise maximum equals taking
the maximum after folding over the second operand. -/
lemma foldl_add_mergeRegs (hashFn : String → ℕ) (l : List String)
    (s : HyperLogLog) : ∀ t : HyperLogLog,
    s.number_of_buckets = t.number_of_buckets →
    0 < s.number_of_buckets → t.wf →
    l.foldl (HyperLogLog.add hashFn) (mergeRegs s t) =
      mergeRegs s (l.foldl (HyperLogLog.add hashFn) t) := by
  induction l with
  | nil => intro t _ _ _; rfl
  | cons x l ih =>
    intro t hm hpos hwf
    rw [List.foldl_cons, List.foldl_cons]
    rw [show (mergeRegs s t).add hashFn x = mergeRegs s (t.add hashFn x) from
      addHash_mergeRegs s t (hashFn x) hm hpos hwf]
    exact ih (t.add hashFn x) (hm.trans (addHash_number t (hashFn x)).symm)
      hpos (addHash_wf t (hashFn x) hwf)

/-- Merging with a fresh estimator of the same shape changes nothing. -/
lemma mergeRegs_fresh (s : HyperLogLog) (hwf : s.wf) :
    mergeRegs s (freshHLL s.number_of_buckets) = s := by
  have hwf' : s.buckets.length = s.number_of_buckets := hwf
  apply HyperLogLog.ext
  · rfl
  · apply list_eq_of_getD
    · rw [mergeRegs_length, hwf']
    · intro i hi
      rw [mergeRegs_length] at hi
      rw [mergeRegs_getD_full, if_pos hi]
      rw [show (freshHLL s.number_of_buckets).buckets.getD i 0 = 0 from
        getD_replicate_zero _ _]
      rw [max_eq_left (Nat.zero_le _)]

/-- C8: for two (disjoint) item streams over a shared power-of-two
bucket count, feeding both streams to one estimator gives exactly the
state obtained by merging the estimators fed with each stream (merge
being the element-wise register maximum). -/
theorem C8_merge_equals_union_of_streams (hashFn : String → ℕ) (k : ℕ)
    (l1 l2 : List String) (hdisj : l1.Disjoint l2) :
    ((l1.foldl (HyperLogLog.add hashFn) (freshHLL (2 ^ k))).merge
        (l2.foldl (HyperLogLog.add hashFn) (freshHLL (2 ^ k)))).1 =
      (l1 ++ l2).foldl (HyperLogLog.add hashFn) (freshHLL (2 ^ k))
    ∧ ((l1.foldl (HyperLogLog.add hashFn) (freshHLL (2 ^ k))).merge
        (l2.foldl (HyperLogLog.add hashFn) (freshHLL (2 ^ k)))).2 = none := by
  have hpos : 0 < 2 ^ k := Nat.two_pow_pos k
  set A := l1.foldl (HyperLogLog.add hashFn) (freshHLL (2 ^ k)) with hA
  set B := l2.foldl (HyperLogLog.add hashFn) (freshHLL (2 ^ k)) with hB
  have hAm : A.number_of_buckets = 2 ^ k := foldl_add_number hashFn l1 _
  have hBm : B.number_of_buckets = 2 ^ k := foldl_add_number hashFn l2 _
  have hAwf : A.wf := foldl_add_wf hashFn l1 _ (freshHLL_wf _)
  have hmeq : A.number_of_buckets = B.number_of_buckets := by rw [hAm, hBm]
  constructor
  · rw [List.foldl_append, ← hA]
    have h1 : l2.foldl (HyperLogLog.add hashFn) A =
        mergeRegs A (l2.foldl (HyperLogLog.add hashFn) (freshHLL (2 ^ k))) := by
      conv_lhs => rw [show A = mergeRegs A (freshHLL A.number_of_buckets) from
        (mergeRegs_fresh A hAwf).symm, hAm]
      exact foldl_add_mergeRegs hashFn l2 A (freshHLL (2 ^ k))
        (by rw [hAm]; rfl) (by rw [hAm]; exact hpos) (freshHLL_wf _)
    rw [h1, ← hB]
    rw [HyperLogLog.merge, if_pos hmeq]
  · rw [HyperLogLog.merge, if_pos hmeq]

/-- Witness for C8 with streams `["a"]` and `["b"]`, two buckets, and
the constant-zero hash. -/
theorem C8_merge_equals_union_of_streams_witness :
    (["a"] : List String).Disjoint ["b"]
    ∧ ((["a"].foldl (HyperLogLog.add fun _ => 0) (freshHLL (2 ^ 1))).merge
        (["b"].foldl (HyperLogLog.add fun _ => 0) (freshHLL (2 ^ 1)))).1 =
      (["a"] ++ ["b"]).foldl (HyperLogLog.add fun _ => 0) (freshHLL (2 ^ 1)) := by
  have hd : (["a"] : List String).Disjoint ["b"] := by
    intro x hx hy
    simp only [List.mem_singleton] at hx hy
    rw [hx] at hy
    exact absurd hy (by decide)
  exact ⟨hd,
    (C8_merge_equals_union_of_streams (fun _ => 0) 1 ["a"] ["b"] hd).1⟩

/-! Claim C10: bound on register values. -/

/-- Bound on the loop output: an input below `2 ^ j` (with `j ≥ 1`)
yields a rank of at most `j` above the starting count minus one. -/
lemma clzGo_le (v : ℕ) : ∀ c j, 1 ≤ j → v < 2 ^ j → clzGo v c + 1 ≤ j + c := by
  induction v using Nat.strong_induction_on with
  | _ v ih =>
    intro c j hj hv
    rw [clzGo_eq]
    by_cases hv0 : 0 < v
    · rw [if_pos hv0]
      by_cases hodd : v &&& 1 = 1
      · rw [if_pos hodd]
        omega
      · rw [if_neg hodd]
        have heven : v % 2 = 0 := by
          rw [Nat.and_one_is_mod] at hodd
          omega
        have h2 : 2 ≤ v := by omega
        have hj2 : 2 ≤ j := by
          rcases Nat.lt_or_ge j 2 with hlt | hge
          · exfalso
            have hj1 : j = 1 := by omega
            rw [hj1] at hv
            norm_num at hv
            omega
          · exact hge
        have hlt : v >>> 1 < v := by
          rw [shiftRight_one_eq]
          exact Nat.div_lt_self hv0 (by norm_num)
        have hvb : v >>> 1 < 2 ^ (j - 1) := by
          rw [shiftRight_one_eq]
          have hsplit : 2 ^ j = 2 * 2 ^ (j - 1) := by
            rw [← pow_succ']
            congr 1
            omega
          omega
        have hrec := ih (v >>> 1) hlt (c + 1) (j - 1) (by omega) hvb
        omega
    · rw [if_neg hv0]
      omega

lemma count_leading_zeroes_le {v j : ℕ} (hj : 1 ≤ j) (hv : v < 2 ^ j) :
    count_leading_zeroes v ≤ j := by
  have h := clzGo_le v 1 j hj hv
  rw [count_leading_zeroes]
  omega

/-- A 256-bit hash shifted right by `k ≤ 255` bits has rank at most
`256 - k`. -/
lemma rank_le_of_hash_lt {h k : ℕ} (hk : k ≤ 255) (hh : h < 2 ^ 256) :
    count_leading_zeroes (h >>> k) ≤ 256 - k := by
  have hj : 1 ≤ 256 - k := by omega
  apply count_leading_zeroes_le hj
  rw [Nat.shiftRight_eq_div_pow]
  have hsplit : 2 ^ 256 = 2 ^ (256 - k) * 2 ^ k := by
    rw [← pow_add]
    congr 1
    omega
  rw [hsplit] at hh
  exact (Nat.div_lt_iff_lt_mul (Nat.two_pow_pos k)).mpr hh

/-- C10 amended: for `bucket_count = 2 ^ k` with `k ≤ 255`, every state
reachable by `add` with 256-bit hashes and by `merge` keeps every
register within `[0, 256 - k]`: a nonzero remainder has rank at most
`256 - log2(bucket_count)` and a zero remainder has rank exactly 1.
(For `k ≥ 256` the bound fails: the remainder is always zero and rank 1
exceeds `256 - k = 0`.) -/
theorem C10_register_values_bounded (k : ℕ) (s : HyperLogLog)
    (hr : ReachableHLL k s) (hk : k ≤ 255) :
    s.number_of_buckets = 2 ^ k
    ∧ ∀ i, s.buckets.getD i 0 ≤ 256 - k := by
  induction hr with
  | fresh =>
    refine ⟨rfl, fun i => ?_⟩
    rw [show (freshHLL (2 ^ k)).buckets.getD i 0 = 0 from
      getD_replicate_zero _ _]
    omega
  | add s' h hh hr' ih =>
    obtain ⟨ihm, ihb⟩ := ih
    refine ⟨ihm, fun i => ?_⟩
    rw [addHash_getD]
    split_ifs with h1 h2
    · apply max_le (ihb i)
      rw [ihm, Nat.log2_two_pow]
      exact rank_le_of_hash_lt hk hh
    · omega
    · exact ihb i
  | merge s' t' hrs hrt ihs iht =>
    obtain ⟨ihms, ihbs⟩ := ihs
    obtain ⟨ihmt, ihbt⟩ := iht
    have hmeq : s'.number_of_buckets = t'.number_of_buckets := by
      rw [ihms, ihmt]
    rw [HyperLogLog.merge, if_pos hmeq]
    refine ⟨ihms, fun i => ?_⟩
    rw [show ((mergeRegs s' t', (none : Option HLLError)).1) = mergeRegs s' t'
      from rfl]
    rw [mergeRegs_getD_full]
    split_ifs with h1
    · exact max_le (ihbs i) (ihbt i)
    · omega

/-- Witness for the amended C10: two buckets, one add of hash value 5. -/
theorem C10_register_values_bounded_witness :
    (1:ℕ) ≤ 255
    ∧ ((freshHLL (2 ^ 1)).addHash 5).number_of_buckets = 2 ^ 1
    ∧ ∀ i, ((freshHLL (2 ^ 1)).addHash 5).buckets.getD i 0 ≤ 256 - 1 := by
  have hr : ReachableHLL 1 ((freshHLL (2 ^ 1)).addHash 5) :=
    ReachableHLL.add _ 5 (by norm_num) ReachableHLL.fresh
  have h := C10_register_values_bounded 1 _ hr (by norm_num)
  exact ⟨by norm_num, h.1, h.2⟩

/-- C10 counterexample: `bucket_count = 2 ^ 256` passes construction,
and adding any 256-bit hash (here 0) writes rank 1 into a register while
the claimed range is `[0, 256 - log2(2^256)] = [0, 0]`. -/
theorem C10_counterexample_bucket_count_2_pow_256 :
    ((freshHLL (2 ^ 256)).addHash 0).buckets.getD 0 0 = 1
    ∧ 256 - Nat.log2 ((2:ℕ) ^ 256) = 0
    ∧ (0:ℕ) < 2 ^ 256 := by
  refine ⟨?_, by rw [Nat.log2_two_pow], Nat.two_pow_pos 256⟩
  rw [addHash_getD, if_pos (by rw [Nat.zero_and]), if_pos (by
    show 0 < (List.replicate (2 ^ 256) 0).length
    rw [List.length_replicate]
    exact Nat.two_pow_pos 256)]
  rw [show (0:ℕ) >>> Nat.log2 (freshHLL (2 ^ 256)).number_of_buckets = 0 from
    Nat.zero_shiftRight _]
  rw [count_leading_zeroes_zero]
  rw [show (freshHLL (2 ^ 256)).buckets.getD 0 0 = 0 from
    getD_replicate_zero _ _]
  rw [max_eq_right (Nat.zero_le 1)]
